import Mathlib

/-!
Verification of the dependency reconciliation and validation engine of
paranoid.js (`src/utils.ts`): the graph flattener (`buildFlatDependencies`),
the yarn lockfile adapter (`loadYarnLockfileDependencies`), the spec
reconciler and the validation engine (`validateDependencies`).

JS `Map`s are modelled as association lists in insertion order (a `set` on an
existing key replaces the value in place, otherwise appends), JS `Set`s as
duplicate-free lists in insertion order, luxon `DateTime`s as rational
numbers of days since an arbitrary epoch, and the external `semver` library
as an interval semantics over exact / tilde / caret / star ranges.
-/

namespace Paranoid

/-- A semver version `major.minor.patch` (prerelease/build tags are not
modelled; the engine never inspects them). -/
structure Version where
  major : Nat
  minor : Nat
  patch : Nat
deriving DecidableEq, Repr

/-- Strict lexicographic order on versions, modelling `semver.gt`/`semver.lt`. -/
def Version.ltb (a b : Version) : Bool :=
  decide (a.major < b.major) ||
    (a.major == b.major &&
      (decide (a.minor < b.minor) ||
        (a.minor == b.minor && decide (a.patch < b.patch))))

/-- Non-strict lexicographic order on versions. -/
def Version.leb (a b : Version) : Bool :=
  decide (a.major < b.major) ||
    (a.major == b.major &&
      (decide (a.minor < b.minor) ||
        (a.minor == b.minor && decide (a.patch ≤ b.patch))))

/-- A version-range expression, modelling the fragment of `semver` range
syntax the engine's configuration schema admits: an exact version, a tilde
range, a caret range, or the wildcard. -/
inductive Range where
  | exact (v : Version)
  | tilde (v : Version)
  | caret (v : Version)
  | star
deriving DecidableEq, Repr

/-- Lower bound (least satisfying version) of a range; models
`semver.minVersion`. -/
def Range.lo : Range → Version
  | .exact v => v
  | .tilde v => v
  | .caret v => v
  | .star => ⟨0, 0, 0⟩

/-- Exclusive upper bound of a range, `none` meaning unbounded. `~M.m.p`
admits `[M.m.p, M.(m+1).0)`; `^M.m.p` admits up to the next major (next
minor for `0.m.p`, next patch for `0.0.p`), following semver semantics. -/
def Range.hi : Range → Option Version
  | .exact v => some ⟨v.major, v.minor, v.patch + 1⟩
  | .tilde v => some ⟨v.major, v.minor + 1, 0⟩
  | .caret v =>
    if v.major = 0 then
      if v.minor = 0 then some ⟨0, 0, v.patch + 1⟩
      else some ⟨0, v.minor + 1, 0⟩
    else some ⟨v.major + 1, 0, 0⟩
  | .star => none

/-- `semver.satisfies version range`: the version lies in the range's
half-open interval. -/
def versionSatisfies (v : Version) (r : Range) : Bool :=
  Version.leb r.lo v &&
    (match r.hi with
     | none => true
     | some h => Version.ltb v h)

/-- `semver.subset a b`: every version satisfying `a` satisfies `b`,
decided by interval containment (see `rangeSubset_iff`). -/
def rangeSubset (a b : Range) : Bool :=
  Version.leb b.lo a.lo &&
    (match a.hi, b.hi with
     | _, none => true
     | none, some _ => false
     | some ha, some hb => Version.leb ha hb)

/-- `semver.maxSatisfying versions range`: the greatest listed version
satisfying the range, `none` if no listed version satisfies it. -/
def maxSatisfying (versions : List Version) (r : Range) : Option Version :=
  match versions with
  | [] => none
  | v :: rest =>
    let m := maxSatisfying rest r
    if versionSatisfies v r then
      match m with
      | none => some v
      | some c => if Version.ltb c v then some v else some c
    else m

/-- The resolved version of an effective spec:
`maxSatisfyingVersion(versions, spec) ?? '0.0.0'` (utils.ts line 179). -/
def resolveVersion (versions : List Version) (spec : Range) : Version :=
  (maxSatisfying versions spec).getD ⟨0, 0, 0⟩

/-! ### JS `Map` and `Set` as association lists / duplicate-free lists -/

/-- `Map.prototype.get`. -/
def mapGet {κ α : Type} [DecidableEq κ] (m : List (κ × α)) (k : κ) : Option α :=
  match m with
  | [] => none
  | (k', v) :: rest => if k' = k then some v else mapGet rest k

/-- `Map.prototype.set`: replaces the value in place if the key exists
(keeping its insertion position), otherwise appends. -/
def mapSet {κ α : Type} [DecidableEq κ] (m : List (κ × α)) (k : κ) (v : α) :
    List (κ × α) :=
  match m with
  | [] => [(k, v)]
  | (k', v') :: rest =>
    if k' = k then (k, v) :: rest else (k', v') :: mapSet rest k v

/-- `new Map(entries)`: later entries overwrite earlier ones. -/
def mapFromEntries {κ α : Type} [DecidableEq κ] (l : List (κ × α)) :
    List (κ × α) :=
  l.foldl (fun m kv => mapSet m kv.1 kv.2) []

/-- `Set.prototype.add`: appends unless already present. -/
def setAdd {α : Type} [DecidableEq α] (s : List α) (x : α) : List α :=
  if x ∈ s then s else s ++ [x]

/-- The value of the last entry of `l` carrying key `k`. -/
def lastEntry {κ α : Type} [DecidableEq κ] (l : List (κ × α)) (k : κ) :
    Option α :=
  match l with
  | [] => none
  | p :: rest =>
    match lastEntry rest k with
    | some v => some v
    | none => if p.1 = k then some p.2 else none

/-- A canonical association list: pairwise-distinct keys. Every map built
through `mapSet` satisfies this. -/
def goodMap {κ α : Type} (m : List (κ × α)) : Prop :=
  (m.map Prod.fst).Nodup

/-! ### Data model (`src/types.ts`) -/

/-- An arborist graph edge. The source's `to` field is a back-reference to
the resolved target node, read only as `edge.to?.version`
(utils.ts line 56); it is modelled by that single read, `toVersion`,
`none` covering both a null `to` and a target without a version. -/
structure Edge where
  dev : Bool
  spec : Range
  toVersion : Option Version
deriving DecidableEq, Repr

/-- The flattened per-package record: collected specs and resolved
versions, both JS `Set`s. -/
structure Dependency where
  specs : List Range
  versions : List Version
deriving DecidableEq, Repr, Inhabited

/-- `Dependencies = Map<string, Dependency>`. -/
abbrev Dependencies := List (String × Dependency)

/-- The engine-relevant configuration (`ConfigMap` in types.ts). The
name-filtering and presentation flags (`exclude`, `include`, `json`,
`mode` and the unsafe-only output flag), which the embedded functions
never read, are omitted. `allowFrom` dates are rationals (days). -/
structure ConfigMap where
  allow : List (String × Range) := []
  deny : List (String × Range) := []
  allowFrom : List (String × Rat) := []
  minDays : Option Int := none
  production : Bool := false
  excludeDev : Bool := false

/-- An arborist node: labelled edges out plus labelled child nodes. The
node's own `version` field is read only through edges (see `Edge`). -/
inductive Node where
  | mk (edgesOut : List (String × Edge)) (children : List (String × Node))

def Node.edgesOut : Node → List (String × Edge)
  | .mk e _ => e

def Node.children : Node → List (String × Node)
  | .mk _ c => c

/-! ### Graph Flattener (`buildFlatDependencies`, utils.ts lines 41-70) -/

/-- The body of the `for (const [name, edge] of tree.edgesOut)` loop:
fetch-or-create the record, add the edge's spec, and add the target's
version when the back-reference resolves (utils.ts lines 49-58). -/
def addEdge (d : Option Dependency) (e : Edge) : Dependency :=
  let d0 := d.getD ⟨[], []⟩
  let d1 : Dependency := { d0 with specs := setAdd d0.specs e.spec }
  match e.toVersion with
  | some v => { d1 with versions := setAdd d1.versions v }
  | none => d1

/-- The edge loop of `buildFlatDependencies` (utils.ts lines 44-61):
dev edges are skipped when `excludeDev` is set. -/
def flattenEdges (edges : List (String × Edge)) (config : ConfigMap) :
    Dependencies :=
  edges.foldl
    (fun deps ne =>
      if config.excludeDev && ne.2.dev then deps
      else mapSet deps ne.1 (addEdge (mapGet deps ne.1) ne.2))
    []

mutual

/-- `buildFlatDependencies` (utils.ts lines 41-70): flatten the node's own
edges, then fold over the children, each merge being
`new Map([...dependencies].concat([...subDependencies]))` (line 66). -/
def buildFlatDependencies (tree : Node) (config : ConfigMap) : Dependencies :=
  match tree with
  | .mk edges children => mergeChildren (flattenEdges edges config) children config

/-- The `for (const [, subTree] of tree.children)` loop of
`buildFlatDependencies` (utils.ts lines 63-67). -/
def mergeChildren (deps : Dependencies) (children : List (String × Node))
    (config : ConfigMap) : Dependencies :=
  match children with
  | [] => deps
  | (_, sub) :: rest =>
    mergeChildren (mapFromEntries (deps ++ buildFlatDependencies sub config))
      rest config

end

/-- The record the last child subtree (in `tree.children` order) containing
`name` contributes for it, if any: because the merge of utils.ts line 66
lets later entries overwrite earlier ones, this is what
`buildFlatDependencies` reports for `name` whenever some child contributes
it (see `buildFlatDependencies_get`). -/
def lastChildHit (children : List (String × Node)) (config : ConfigMap)
    (name : String) : Option Dependency :=
  match children with
  | [] => none
  | (_, sub) :: rest =>
    match lastChildHit rest config name with
    | some d => some d
    | none => mapGet (buildFlatDependencies sub config) name

/-! ### Lockfile Adapter (`loadYarnLockfileDependencies`, utils.ts 72-104) -/

/-- One parsed entry of the yarn lockfile. `isMetadata` marks the
`__metadata` key; `name`/`protocol`/`spec` model the captures of
`specRegex` (utils.ts line 16), with `spec = none` covering both a failed
match and a spec rejected by `validRange` (line 86); `version` is the
entry's resolved version. -/
structure YarnEntry where
  isMetadata : Bool
  name : Option String
  protocol : Option String
  spec : Option Range
  version : Version

/-- `loadYarnLockfileDependencies` (utils.ts lines 72-104) over the
already-parsed entry list. -/
def loadYarnLockfileDependencies (entries : List YarnEntry) : Dependencies :=
  entries.foldl
    (fun deps e =>
      if e.isMetadata then deps
      else
        match e.spec with
        | none => deps
        | some spec =>
          match e.name with
          | none => deps
          | some name =>
            if e.protocol = none ∨ e.protocol = some "npm:" then
              let d := (mapGet deps name).getD ⟨[], []⟩
              mapSet deps name
                ⟨setAdd d.specs spec, setAdd d.versions e.version⟩
            else deps)
    []

/-! ### Spec Reconciler (utils.ts lines 151-176) -/

/-- Model of `Array.prototype.sort` with the comparator
`(first, second) => (rangeSubset(first, second) ? -1 : 1)`
(utils.ts line 159), as a stable insertion sort. The comparator is
inconsistent in general, for which ECMAScript leaves the resulting order
implementation-defined; theorems below rely on the order only where every
implementation agrees (lists of at most two specs). -/
def sortInsert (x : Range) : List Range → List Range
  | [] => [x]
  | y :: ys => if rangeSubset x y then x :: y :: ys else y :: sortInsert x ys

def sortSpecs (l : List Range) : List Range := l.foldr sortInsert []

/-- The reducer of utils.ts lines 160-172: drop the incoming spec whenever
some already-kept spec is a `rangeSubset` of it, else append. -/
def reconcileStep (carry : List Range) (spec : Range) : List Range :=
  if carry.length = 0 then [spec]
  else if carry.any (fun kept => rangeSubset kept spec) then carry
  else carry ++ [spec]

/-- The non-installed-mode reconciliation pipeline of utils.ts
lines 157-174: sort, reduce, reverse. -/
def reconcile (specs : List Range) : List Range :=
  ((sortSpecs specs).foldl reconcileStep []).reverse

/-- The effective specs (utils.ts lines 151-176): wildcard for a package
with no record; the record's versions (each an exact spec) in installed
("production") mode when non-empty; otherwise the reconciled specs. -/
def effectiveSpecs (dependency : Option Dependency) (config : ConfigMap) :
    List Range :=
  match dependency with
  | none => [Range.star]
  | some d =>
    if config.production && decide (0 < d.versions.length) then
      d.versions.map Range.exact
    else reconcile d.specs

/-! ### Validation Engine (`validateDependencies`, utils.ts lines 132-233) -/

/-- A key of the packument's `time` object: the two reserved keys or a
version key. -/
inductive TimeKey where
  | created
  | modified
  | version (v : Version)
deriving DecidableEq, Repr

/-- A packument: the package name and its `time` mapping (publish
timestamps in days, ISO strings in the source). -/
structure Packument where
  name : String
  time : Option (List (TimeKey × Rat))

/-- An advisory as produced by the metavuln calculator: `testVersion` is
its version-applicability predicate, `versions` its known version list and
`vulnerableVersions` the vulnerable subset. -/
structure Advisory where
  dependency : String
  range : Option String
  severity : String
  title : String
  url : Option String
  versions : List Version
  vulnerableVersions : List Version
  testVersion : Version → Bool

structure Recommendation where
  fixedVersion : Option Version
  dependency : String
  range : Option String
  severity : String
  title : String
  url : Option String
deriving DecidableEq, Repr

structure Validation where
  recommendations : List Recommendation
  version : Version
  daysSincePublish : Int
  safe : Bool
deriving DecidableEq, Repr

/-- `config.minDays ?? 14` (utils.ts line 138). -/
def effectiveMinDays (config : ConfigMap) : Int := config.minDays.getD 14

/-- `Object.keys(packument.time ?? {})` minus the reserved `created` and
`modified` keys (utils.ts lines 144-146). -/
def knownVersions (time : Option (List (TimeKey × Rat))) : List Version :=
  (time.getD []).filterMap fun kv =>
    match kv.1 with
    | .version v => some v
    | _ => none

/-- `packument.time?.[version]`. -/
def timeLookup (time : Option (List (TimeKey × Rat))) (v : Version) :
    Option Rat :=
  match time with
  | none => none
  | some entries => mapGet entries (TimeKey.version v)

/-- `packument.time?.[version] ?? now.toISO()` (utils.ts line 191). -/
def publishedOf (time : Option (List (TimeKey × Rat))) (v : Version)
    (now : Rat) : Rat :=
  (timeLookup time v).getD now

/-- `allowedSpec == null || versionSatisfies(version, allowedSpec)`
(utils.ts line 187). -/
def allowCheck (config : ConfigMap) (name : String) (version : Version) :
    Bool :=
  match mapGet config.allow name with
  | none => true
  | some r => versionSatisfies version r

/-- `deniedSpec == null || versionSatisfies(version, deniedSpec)`
(utils.ts line 188): the verdict survives when the version satisfies the
configured deny range, mirroring the allow check. -/
def denyCheck (config : ConfigMap) (name : String) (version : Version) :
    Bool :=
  match mapGet config.deny name with
  | none => true
  | some r => versionSatisfies version r

/-- `allowedFrom == null ||
now.diff(allowedFrom.plus({ days: minDays }), 'days').days >= 0`
(utils.ts line 189). -/
def grandfatherCheck (config : ConfigMap) (name : String) (now : Rat)
    (minDays : Int) : Bool :=
  match mapGet config.allowFrom name with
  | none => true
  | some d => decide (0 ≤ now - (d + (minDays : Rat)))

/-- The computed `fixedVersion` (utils.ts lines 199-204): among the
advisory's versions that are not vulnerable and are greater than the
resolved version, the least one, `null` if none. -/
def fixedVersionFor (advisory : Advisory) (version : Version) :
    Option Version :=
  (advisory.versions.filter fun item =>
      !(decide (item ∈ advisory.vulnerableVersions)) &&
        Version.ltb version item).foldl
    (fun carry item =>
      match carry with
      | none => some item
      | some c => if Version.ltb item c then some item else some c)
    none

/-- The advisory loop of utils.ts lines 196-216: one recommendation per
advisory whose `testVersion` accepts the resolved version. -/
def recommendationsFor (vulnerability : Option (List Advisory))
    (version : Version) : List Recommendation :=
  match vulnerability with
  | none => []
  | some advisories =>
    advisories.foldl
      (fun recs advisory =>
        if advisory.testVersion version then
          recs ++ [{ fixedVersion := fixedVersionFor advisory version,
                     dependency := advisory.dependency,
                     range := advisory.range,
                     severity := advisory.severity,
                     title := advisory.title,
                     url := advisory.url }]
        else recs)
      []

/-- The pushed Validation (utils.ts lines 220-225): `daysSincePublish` is
`Math.floor(days)` and `safe` compares the unfloored `days` against
`minDays`. -/
def mkValidation (recommendations : List Recommendation) (version : Version)
    (now published : Rat) (minDays : Int) : Validation :=
  { recommendations := recommendations
    version := version
    daysSincePublish := ⌊now - published⌋
    safe := decide ((minDays : Rat) ≤ now - published) }

/-- `validateDependencies` (utils.ts lines 132-233). -/
def validateDependencies (dependencies : Dependencies)
    (packuments : List Packument)
    (vulnerabilities : List (String × List Advisory)) (config : ConfigMap)
    (now : Rat) : List (String × List Validation) :=
  let minDays := effectiveMinDays config
  packuments.foldl
    (fun validations p =>
      let versions := knownVersions p.time
      let dependency := mapGet dependencies p.name
      let vulnerability := mapGet vulnerabilities p.name
      let specs := effectiveSpecs dependency config
      specs.foldl
        (fun validations spec =>
          let version := resolveVersion versions spec
          if allowCheck config p.name version &&
              denyCheck config p.name version &&
              grandfatherCheck config p.name now minDays then
            let published := publishedOf p.time version now
            let recommendations := recommendationsFor vulnerability version
            let validation := (mapGet validations p.name).getD []
            mapSet validations p.name
              (validation ++
                [mkValidation recommendations version now published minDays])
          else validations)
        validations)
    []

/-! ### `buildFlatDependencies` over a node table

To study termination on graphs that are not trees, the same recursion is
restated over a node table: children refer to nodes by index, so reference
cycles are representable (design note §9 suggests exactly this index-lookup
view of node references). `runFlat` is `buildFlatDependencies` with an
explicit recursion-depth budget; the source tracks no visited set, and
neither does this embedding. -/

/-- A graph node: labelled edges out plus labelled child node indices. -/
structure GNode where
  edgesOut : List (String × Edge)
  children : List (String × Nat)
deriving Inhabited

mutual

/-- `buildFlatDependencies` over a node table, with a recursion-depth
budget; `none` means the budget was exhausted (or a child index dangles)
before the recursion completed. -/
def runFlat (g : List GNode) (config : ConfigMap) :
    Nat → Nat → Option Dependencies
  | 0, _ => none
  | fuel + 1, i =>
    match g.get? i with
    | none => none
    | some node =>
      runChildren g config fuel (flattenEdges node.edgesOut config)
        node.children
termination_by fuel i => (fuel, 0)

/-- The child-merge loop of `runFlat`, merging exactly as
utils.ts line 66. -/
def runChildren (g : List GNode) (config : ConfigMap) :
    Nat → Dependencies → List (String × Nat) → Option Dependencies
  | _, deps, [] => some deps
  | fuel, deps, (_, c) :: rest =>
    match runFlat g config fuel c with
    | none => none
    | some sub => runChildren g config fuel (mapFromEntries (deps ++ sub)) rest
termination_by fuel deps cs => (fuel, cs.length + 1)

end

/-- The recursion completes on this input within some finite depth budget. -/
def terminatesOn (g : List GNode) (config : ConfigMap) (root : Nat) : Prop :=
  ∃ fuel, (runFlat g config fuel root).isSome = true


/-! ## Theorems -/

theorem Version.ltb_iff (a b : Version) :
    a.ltb b = true ↔
      a.major < b.major ∨
        (a.major = b.major ∧
          (a.minor < b.minor ∨ (a.minor = b.minor ∧ a.patch < b.patch))) := by
  simp [Version.ltb]

theorem Version.leb_iff (a b : Version) :
    a.leb b = true ↔
      a.major < b.major ∨
        (a.major = b.major ∧
          (a.minor < b.minor ∨ (a.minor = b.minor ∧ a.patch ≤ b.patch))) := by
  simp [Version.leb]

theorem Version.leb_refl (a : Version) : a.leb a = true := by
  rw [Version.leb_iff]; omega

theorem Version.leb_trans {a b c : Version} (h₁ : a.leb b = true)
    (h₂ : b.leb c = true) : a.leb c = true := by
  rw [Version.leb_iff] at h₁ h₂ ⊢; omega

theorem Version.ltb_of_leb_of_ltb {a b c : Version} (h₁ : a.leb b = true)
    (h₂ : b.ltb c = true) : a.ltb c = true := by
  rw [Version.leb_iff] at h₁; rw [Version.ltb_iff] at h₂ ⊢; omega

theorem Version.ltb_of_ltb_of_leb {a b c : Version} (h₁ : a.ltb b = true)
    (h₂ : b.leb c = true) : a.ltb c = true := by
  rw [Version.ltb_iff] at h₁ ⊢; rw [Version.leb_iff] at h₂; omega

theorem Version.leb_of_ltb {a b : Version} (h : a.ltb b = true) :
    a.leb b = true := by
  rw [Version.ltb_iff] at h; rw [Version.leb_iff]; omega

theorem Version.not_leb {a b : Version} (h : a.leb b = false) :
    b.ltb a = true := by
  have h' : ¬ (a.leb b = true) := by simp [h]
  rw [Version.leb_iff] at h'; rw [Version.ltb_iff]; omega

theorem Version.not_ltb {a b : Version} (h : a.ltb b = false) :
    b.leb a = true := by
  have h' : ¬ (a.ltb b = true) := by simp [h]
  rw [Version.ltb_iff] at h'; rw [Version.leb_iff]; omega

theorem Version.ltb_irrefl (a : Version) : a.ltb a = false := by
  have : ¬ (a.ltb a = true) := by rw [Version.ltb_iff]; omega
  simpa using this

theorem Version.ltb_asymm {a b : Version} (h : a.ltb b = true) :
    b.ltb a = false := by
  rw [Version.ltb_iff] at h
  have : ¬ (b.ltb a = true) := by rw [Version.ltb_iff]; omega
  simpa using this

theorem Range.lo_ltb_hi (r : Range) {h : Version} (hh : r.hi = some h) :
    Version.ltb r.lo h = true := by
  cases r with
  | exact v =>
    simp only [Range.hi, Option.some.injEq] at hh
    subst hh
    simp only [Range.lo]
    rw [Version.ltb_iff]; dsimp only; omega
  | tilde v =>
    simp only [Range.hi, Option.some.injEq] at hh
    subst hh
    simp only [Range.lo]
    rw [Version.ltb_iff]; dsimp only; omega
  | caret v =>
    simp only [Range.hi] at hh
    by_cases h0 : v.major = 0
    · rw [if_pos h0] at hh
      by_cases h1 : v.minor = 0
      · rw [if_pos h1] at hh
        simp only [Option.some.injEq] at hh
        subst hh
        simp only [Range.lo]
        rw [Version.ltb_iff]; dsimp only; omega
      · rw [if_neg h1] at hh
        simp only [Option.some.injEq] at hh
        subst hh
        simp only [Range.lo]
        rw [Version.ltb_iff]; dsimp only; omega
    · rw [if_neg h0] at hh
      simp only [Option.some.injEq] at hh
      subst hh
      simp only [Range.lo]
      rw [Version.ltb_iff]; dsimp only; omega
  | star => simp [Range.hi] at hh

/-- Every range in the model is satisfiable: its lower bound satisfies it. -/
theorem lo_satisfies (r : Range) : versionSatisfies r.lo r = true := by
  unfold versionSatisfies
  rw [Version.leb_refl]
  cases hh : r.hi with
  | none => simp
  | some h => simp [Range.lo_ltb_hi r hh]

theorem rangeSubset_sound {a b : Range} (h : rangeSubset a b = true) :
    ∀ v, versionSatisfies v a = true → versionSatisfies v b = true := by
  intro v hv
  unfold rangeSubset at h
  unfold versionSatisfies at hv ⊢
  rw [Bool.and_eq_true] at h hv
  obtain ⟨hlo, hhi⟩ := h
  obtain ⟨hvlo, hvhi⟩ := hv
  rw [Bool.and_eq_true]
  refine ⟨Version.leb_trans hlo hvlo, ?_⟩
  cases hb : b.hi with
  | none => simp
  | some hb' =>
    cases ha : a.hi with
    | none => simp [ha, hb] at hhi
    | some ha' =>
      simp only [ha, hb] at hhi
      simp only [ha] at hvhi
      exact Version.ltb_of_ltb_of_leb hvhi hhi

theorem rangeSubset_complete {a b : Range}
    (h : ∀ v, versionSatisfies v a = true → versionSatisfies v b = true) :
    rangeSubset a b = true := by
  have hlo := h a.lo (lo_satisfies a)
  unfold versionSatisfies at hlo
  rw [Bool.and_eq_true] at hlo
  obtain ⟨hlo₁, -⟩ := hlo
  unfold rangeSubset
  rw [Bool.and_eq_true]
  refine ⟨hlo₁, ?_⟩
  cases hb : b.hi with
  | none => cases ha : a.hi <;> simp
  | some hb' =>
    cases hha : a.hi with
    | none =>
      -- `a` is unbounded, so `a` must be the star range; a version above
      -- `b`'s bound satisfies `a` but not `b`, contradicting inclusion.
      exfalso
      cases a with
      | star =>
        have hsat : versionSatisfies ⟨hb'.major + 1, 0, 0⟩ Range.star = true := by
          unfold versionSatisfies
          simp only [Range.lo, Range.hi]
          rw [Bool.and_eq_true]
          refine ⟨?_, rfl⟩
          rw [Version.leb_iff]; dsimp only; omega
        have hw := h _ hsat
        unfold versionSatisfies at hw
        rw [Bool.and_eq_true] at hw
        obtain ⟨-, hub⟩ := hw
        simp only [hb] at hub
        rw [Version.ltb_iff] at hub
        dsimp only at hub
        omega
      | exact v => simp [Range.hi] at hha
      | tilde v => simp [Range.hi] at hha
      | caret v =>
        simp only [Range.hi] at hha
        by_cases h0 : v.major = 0
        · rw [if_pos h0] at hha
          by_cases h1 : v.minor = 0
          · rw [if_pos h1] at hha; exact Option.noConfusion hha
          · rw [if_neg h1] at hha; exact Option.noConfusion hha
        · rw [if_neg h0] at hha; exact Option.noConfusion hha
    | some ha' =>
      show Version.leb ha' hb' = true
      by_contra hle
      rw [Bool.not_eq_true] at hle
      have hlt : Version.ltb hb' ha' = true := Version.not_leb hle
      by_cases hcase : Version.leb a.lo hb' = true
      · -- `b`'s bound itself satisfies `a` but fails `b`'s strict bound.
        have hsat : versionSatisfies hb' a = true := by
          unfold versionSatisfies
          rw [Bool.and_eq_true]
          refine ⟨hcase, ?_⟩
          simp only [hha]
          exact hlt
        have hw := h hb' hsat
        unfold versionSatisfies at hw
        rw [Bool.and_eq_true] at hw
        obtain ⟨-, hub⟩ := hw
        simp only [hb] at hub
        rw [Version.ltb_irrefl] at hub
        exact Bool.false_ne_true hub
      · -- `a.lo` lies at or above `b`'s bound yet must satisfy `b`.
        have hcase' : Version.leb a.lo hb' = false := by
          revert hcase; cases Version.leb a.lo hb' <;> simp
        have hgt : Version.ltb hb' a.lo = true := Version.not_leb hcase'
        have hw := h a.lo (lo_satisfies a)
        unfold versionSatisfies at hw
        rw [Bool.and_eq_true] at hw
        obtain ⟨-, hub⟩ := hw
        simp only [hb] at hub
        have hasym := Version.ltb_asymm hgt
        rw [hasym] at hub
        exact Bool.false_ne_true hub

/-- `semver.subset` agrees with inclusion of satisfying-version sets. -/
theorem rangeSubset_iff (a b : Range) :
    rangeSubset a b = true ↔
      ∀ v, versionSatisfies v a = true → versionSatisfies v b = true :=
  ⟨rangeSubset_sound, rangeSubset_complete⟩

theorem maxSatisfying_eq_none_iff (versions : List Version) (r : Range) :
    maxSatisfying versions r = none ↔
      ∀ v ∈ versions, versionSatisfies v r = false := by
  induction versions with
  | nil => simp [maxSatisfying]
  | cons v rest ih =>
    rw [maxSatisfying]
    by_cases hv : versionSatisfies v r = true
    · rw [if_pos hv]
      cases hm : maxSatisfying rest r with
      | none => simp [hv]
      | some c =>
        dsimp only
        constructor
        · intro hcon
          exact absurd hcon (by split <;> simp)
        · intro hall
          have := hall v (by simp)
          rw [hv] at this
          exact absurd this (by simp)
    · rw [if_neg hv]
      rw [Bool.not_eq_true] at hv
      rw [ih]
      constructor
      · intro hall w hw
        rcases List.mem_cons.mp hw with h | h
        · subst h; exact hv
        · exact hall w h
      · intro hall w hw
        exact hall w (List.mem_cons_of_mem _ hw)

theorem maxSatisfying_eq_some (versions : List Version) (r : Range)
    {m : Version} (h : maxSatisfying versions r = some m) :
    m ∈ versions ∧ versionSatisfies m r = true ∧
      ∀ v ∈ versions, versionSatisfies v r = true → Version.leb v m = true := by
  induction versions generalizing m with
  | nil => simp [maxSatisfying] at h
  | cons v rest ih =>
    rw [maxSatisfying] at h
    by_cases hv : versionSatisfies v r = true
    · rw [if_pos hv] at h
      cases hm : maxSatisfying rest r with
      | none =>
        rw [hm] at h
        simp only [Option.some.injEq] at h
        subst h
        refine ⟨by simp, hv, ?_⟩
        intro w hw hws
        rcases List.mem_cons.mp hw with hh | hh
        · subst hh; exact Version.leb_refl _
        · have := (maxSatisfying_eq_none_iff rest r).mp hm w hh
          rw [this] at hws
          exact absurd hws (by simp)
      | some c =>
        rw [hm] at h
        dsimp only at h
        obtain ⟨hcmem, hcsat, hcmax⟩ := ih hm
        by_cases hlt : Version.ltb c v = true
        · rw [if_pos hlt] at h
          simp only [Option.some.injEq] at h
          subst h
          refine ⟨by simp, hv, ?_⟩
          intro w hw hws
          rcases List.mem_cons.mp hw with hh | hh
          · subst hh; exact Version.leb_refl _
          · exact Version.leb_trans (hcmax w hh hws) (Version.leb_of_ltb hlt)
        · rw [if_neg hlt] at h
          simp only [Option.some.injEq] at h
          subst h
          refine ⟨List.mem_cons_of_mem _ hcmem, hcsat, ?_⟩
          intro w hw hws
          rcases List.mem_cons.mp hw with hh | hh
          · subst hh
            exact Version.not_ltb (Bool.not_eq_true _ ▸ hlt)
          · exact hcmax w hh hws
    · rw [if_neg hv] at h
      rw [Bool.not_eq_true] at hv
      obtain ⟨hmem, hsat, hmax⟩ := ih h
      refine ⟨List.mem_cons_of_mem _ hmem, hsat, ?_⟩
      intro w hw hws
      rcases List.mem_cons.mp hw with hh | hh
      · subst hh; rw [hv] at hws; exact absurd hws (by simp)
      · exact hmax w hh hws

theorem setAdd_ne_nil {α : Type} [DecidableEq α] (s : List α) (x : α) :
    setAdd s x ≠ [] := by
  unfold setAdd
  split
  · intro hc
    subst hc
    simp_all
  · simp

theorem subset_setAdd {α : Type} [DecidableEq α] (s : List α) (x : α) :
    s ⊆ setAdd s x := by
  unfold setAdd
  split
  · exact fun _ h => h
  · exact fun _ h => List.mem_append_left _ h

theorem mem_setAdd_self {α : Type} [DecidableEq α] (s : List α) (x : α) :
    x ∈ setAdd s x := by
  unfold setAdd
  split
  · assumption
  · simp

theorem mem_setAdd_iff {α : Type} [DecidableEq α] (s : List α) (x y : α) :
    y ∈ setAdd s x ↔ y ∈ s ∨ y = x := by
  unfold setAdd
  split
  · constructor
    · exact fun h => Or.inl h
    · rintro (h | h)
      · exact h
      · subst h; assumption
  · simp

theorem mapGet_set_self {κ α : Type} [DecidableEq κ] (m : List (κ × α))
    (k : κ) (v : α) : mapGet (mapSet m k v) k = some v := by
  induction m with
  | nil => simp [mapSet, mapGet]
  | cons p rest ih =>
    rw [mapSet]
    by_cases h : p.1 = k
    · rw [if_pos h]; simp [mapGet]
    · rw [if_neg h]
      rw [mapGet, if_neg h]
      exact ih

theorem mapGet_set_ne {κ α : Type} [DecidableEq κ] (m : List (κ × α))
    {k k' : κ} (v : α) (h : k ≠ k') :
    mapGet (mapSet m k v) k' = mapGet m k' := by
  induction m with
  | nil => simp [mapSet, mapGet, h]
  | cons p rest ih =>
    rw [mapSet]
    by_cases hp : p.1 = k
    · rw [if_pos hp]
      rw [mapGet, mapGet, if_neg h, hp, if_neg h]
    · rw [if_neg hp]
      rw [mapGet, mapGet]
      by_cases hp' : p.1 = k'
      · rw [if_pos hp', if_pos hp']
      · rw [if_neg hp', if_neg hp']
        exact ih

theorem mem_mapSet {κ α : Type} [DecidableEq κ] {m : List (κ × α)}
    {k : κ} {v : α} {p : κ × α} (h : p ∈ mapSet m k v) :
    p ∈ m ∨ p = (k, v) := by
  induction m with
  | nil => simp [mapSet] at h; right; exact h
  | cons q rest ih =>
    rw [mapSet] at h
    by_cases hq : q.1 = k
    · rw [if_pos hq] at h
      rcases List.mem_cons.mp h with hh | hh
      · right; exact hh
      · left; exact List.mem_cons_of_mem _ hh
    · rw [if_neg hq] at h
      rcases List.mem_cons.mp h with hh | hh
      · left; subst hh; exact List.mem_cons_self _ _
      · rcases ih hh with hh' | hh'
        · left; exact List.mem_cons_of_mem _ hh'
        · right; exact hh'

theorem mapGet_mem {κ α : Type} [DecidableEq κ] {m : List (κ × α)} {k : κ}
    {v : α} (h : mapGet m k = some v) : (k, v) ∈ m := by
  induction m with
  | nil => simp [mapGet] at h
  | cons p rest ih =>
    rw [mapGet] at h
    by_cases hp : p.1 = k
    · rw [if_pos hp] at h
      simp only [Option.some.injEq] at h
      subst h
      rw [← hp]
      exact List.mem_cons_self _ _
    · rw [if_neg hp] at h
      exact List.mem_cons_of_mem _ (ih h)

theorem lastEntry_append {κ α : Type} [DecidableEq κ] (a b : List (κ × α))
    (k : κ) :
    lastEntry (a ++ b) k =
      match lastEntry b k with
      | some v => some v
      | none => lastEntry a k := by
  induction a with
  | nil =>
    simp only [List.nil_append]
    cases lastEntry b k <;> simp [lastEntry]
  | cons p rest ih =>
    rw [List.cons_append, lastEntry, ih, lastEntry]
    cases lastEntry b k <;> cases lastEntry rest k <;> simp

theorem foldl_mapSet_get {κ α : Type} [DecidableEq κ] (l : List (κ × α))
    (m : List (κ × α)) (k : κ) :
    mapGet (l.foldl (fun m kv => mapSet m kv.1 kv.2) m) k =
      match lastEntry l k with
      | some v => some v
      | none => mapGet m k := by
  induction l generalizing m with
  | nil => simp [lastEntry]
  | cons p rest ih =>
    rw [List.foldl_cons, ih, lastEntry]
    cases hrest : lastEntry rest k with
    | some v => simp
    | none =>
      simp only
      by_cases hp : p.1 = k
      · rw [if_pos hp, hp, mapGet_set_self]
      · rw [if_neg hp, mapGet_set_ne _ _ hp]

theorem mapFromEntries_get {κ α : Type} [DecidableEq κ] (l : List (κ × α))
    (k : κ) : mapGet (mapFromEntries l) k = lastEntry l k := by
  unfold mapFromEntries
  rw [foldl_mapSet_get]
  cases lastEntry l k <;> simp [mapGet]

theorem foldl_preserve {α β : Type} {P : β → Prop} {f : β → α → β}
    (hf : ∀ b a, P b → P (f b a)) :
    ∀ (l : List α) (b : β), P b → P (l.foldl f b) := by
  intro l
  induction l with
  | nil => intro b hb; exact hb
  | cons a rest ih => intro b hb; exact ih _ (hf b a hb)

theorem foldl_preserve_mem {α β : Type} {P : β → Prop} {f : β → α → β} :
    ∀ (l : List α) (b : β), (∀ b a, a ∈ l → P b → P (f b a)) → P b →
      P (l.foldl f b) := by
  intro l
  induction l with
  | nil => intro b _ hb; exact hb
  | cons a rest ih =>
    intro b hf hb
    exact ih _ (fun b x hx => hf b x (List.mem_cons_of_mem _ hx))
      (hf b a (List.mem_cons_self _ _) hb)

theorem mapGet_eq_none {κ α : Type} [DecidableEq κ] {m : List (κ × α)}
    {k : κ} (h : k ∉ m.map Prod.fst) : mapGet m k = none := by
  induction m with
  | nil => rfl
  | cons p rest ih =>
    rw [mapGet]
    simp only [List.map_cons, List.mem_cons] at h
    push_neg at h
    rw [if_neg (fun hh => h.1 hh.symm)]
    exact ih h.2

theorem lastEntry_eq_mapGet {κ α : Type} [DecidableEq κ] {m : List (κ × α)}
    (h : goodMap m) (k : κ) : lastEntry m k = mapGet m k := by
  induction m with
  | nil => rfl
  | cons p rest ih =>
    rw [goodMap, List.map_cons, List.nodup_cons] at h
    obtain ⟨hp, hrest⟩ := h
    rw [lastEntry, mapGet, ih hrest]
    by_cases hpk : p.1 = k
    · subst hpk
      rw [mapGet_eq_none hp]
    · rw [if_neg hpk]
      cases mapGet rest k <;> simp [hpk]

theorem mapSet_map_fst {κ α : Type} [DecidableEq κ] (m : List (κ × α))
    (k : κ) (v : α) :
    (mapSet m k v).map Prod.fst =
      if k ∈ m.map Prod.fst then m.map Prod.fst
      else m.map Prod.fst ++ [k] := by
  induction m with
  | nil => simp [mapSet]
  | cons p rest ih =>
    rw [mapSet]
    by_cases hp : p.1 = k
    · rw [if_pos hp]
      subst hp
      simp
    · rw [if_neg hp]
      simp only [List.map_cons, ih]
      by_cases hk : k ∈ rest.map Prod.fst
      · rw [if_pos hk, if_pos (by simp [hk])]
      · rw [if_neg hk,
          if_neg (by simp only [List.mem_cons]; rintro (h | h)
                     · exact hp h.symm
                     · exact hk h)]
        exact (List.cons_append _ _ _).symm

theorem goodMap_mapSet {κ α : Type} [DecidableEq κ] {m : List (κ × α)}
    (h : goodMap m) (k : κ) (v : α) : goodMap (mapSet m k v) := by
  rw [goodMap, mapSet_map_fst]
  split
  · exact h
  · rename_i hk
    rw [List.nodup_append]
    exact ⟨h, List.nodup_singleton _, by simpa using hk⟩

theorem goodMap_mapFromEntries {κ α : Type} [DecidableEq κ]
    (l : List (κ × α)) : goodMap (mapFromEntries l) := by
  unfold mapFromEntries
  exact foldl_preserve (P := goodMap)
    (fun b a hb => goodMap_mapSet hb a.1 a.2) l [] (by simp [goodMap])

theorem mem_mapFromEntries {κ α : Type} [DecidableEq κ] {l : List (κ × α)}
    {p : κ × α} (h : p ∈ mapFromEntries l) : p ∈ l := by
  unfold mapFromEntries at h
  refine foldl_preserve_mem (P := fun m => ∀ q ∈ m, q ∈ l) l []
    ?_ (by simp) p h
  intro b a ha hb q hq
  rcases mem_mapSet hq with h' | h'
  · exact hb q h'
  · subst h'; exact ha

theorem goodMap_flattenEdges (edges : List (String × Edge))
    (config : ConfigMap) : goodMap (flattenEdges edges config) := by
  unfold flattenEdges
  refine foldl_preserve ?_ edges [] (by simp [goodMap])
  intro b a hb
  split
  · exact hb
  · exact goodMap_mapSet hb _ _

theorem goodMap_buildFlatDependencies (tree : Node) (config : ConfigMap) :
    goodMap (buildFlatDependencies tree config) := by
  have hmerge : ∀ (children : List (String × Node)) (deps : Dependencies),
      goodMap deps → goodMap (mergeChildren deps children config) := by
    intro children
    induction children with
    | nil => intro deps h; rw [mergeChildren]; exact h
    | cons c rest ih =>
      intro deps h
      obtain ⟨cn, sub⟩ := c
      rw [mergeChildren]
      exact ih _ (goodMap_mapFromEntries _)
  cases tree with
  | mk edges children =>
    rw [buildFlatDependencies]
    exact hmerge children _ (goodMap_flattenEdges edges config)

theorem mergeChildren_get (children : List (String × Node))
    (deps : Dependencies) (config : ConfigMap) (name : String)
    (h : goodMap deps) :
    mapGet (mergeChildren deps children config) name =
      match lastChildHit children config name with
      | some d => some d
      | none => mapGet deps name := by
  induction children generalizing deps with
  | nil => rw [mergeChildren, lastChildHit]
  | cons c rest ih =>
    obtain ⟨cn, sub⟩ := c
    rw [mergeChildren, lastChildHit]
    rw [ih _ (goodMap_mapFromEntries _)]
    cases hrest : lastChildHit rest config name with
    | some d => simp
    | none =>
      simp only
      rw [mapFromEntries_get, lastEntry_append,
        lastEntry_eq_mapGet (goodMap_buildFlatDependencies sub config),
        lastEntry_eq_mapGet h]
      cases mapGet (buildFlatDependencies sub config) name <;> simp

/-- What `buildFlatDependencies` reports for a package name: the record of
the last child subtree containing it, else the record accumulated over the
node's own edges. -/
theorem buildFlatDependencies_get (edges : List (String × Edge))
    (children : List (String × Node)) (config : ConfigMap) (name : String) :
    mapGet (buildFlatDependencies (Node.mk edges children) config) name =
      match lastChildHit children config name with
      | some d => some d
      | none => mapGet (flattenEdges edges config) name := by
  rw [buildFlatDependencies]
  exact mergeChildren_get children _ config name
    (goodMap_flattenEdges edges config)

theorem addEdge_specs (d : Option Dependency) (e : Edge) :
    (addEdge d e).specs = setAdd (d.getD ⟨[], []⟩).specs e.spec := by
  unfold addEdge
  cases e.toVersion <;> rfl

/-- Within a single node's edge loop, every non-skipped edge's spec lands
in the record of its target name. -/
theorem flattenEdges_spec_mem (edges : List (String × Edge))
    (config : ConfigMap) (name : String) (e : Edge)
    (hmem : (name, e) ∈ edges) (hskip : (config.excludeDev && e.dev) = false) :
    ∃ d, mapGet (flattenEdges edges config) name = some d ∧
      e.spec ∈ d.specs := by
  obtain ⟨l₁, l₂, rfl⟩ := List.append_of_mem hmem
  unfold flattenEdges
  rw [List.foldl_append, List.foldl_cons]
  refine foldl_preserve
    (P := fun (m : Dependencies) => ∃ d, mapGet m name = some d ∧ e.spec ∈ d.specs) ?_ l₂ _ ?_
  · intro b a hb
    obtain ⟨d, hg, hs⟩ := hb
    by_cases hsk : (config.excludeDev && a.2.dev) = true
    · rw [if_pos hsk]
      exact ⟨d, hg, hs⟩
    · rw [if_neg hsk]
      by_cases hn : a.1 = name
      · subst hn
        refine ⟨addEdge (mapGet b a.1) a.2, mapGet_set_self _ _ _, ?_⟩
        rw [addEdge_specs, hg]
        exact subset_setAdd _ _ hs
      · rw [mapGet_set_ne _ _ hn]
        exact ⟨d, hg, hs⟩
  · rw [if_neg (by simp [hskip])]
    refine ⟨addEdge (mapGet _ name) e, mapGet_set_self _ _ _, ?_⟩
    rw [addEdge_specs]
    exact mem_setAdd_self _ _

theorem flattenEdges_specs_ne (edges : List (String × Edge))
    (config : ConfigMap) :
    ∀ p, p ∈ flattenEdges edges config → p.2.specs ≠ [] := by
  unfold flattenEdges
  refine foldl_preserve
    (P := fun (m : Dependencies) => ∀ p, p ∈ m → p.2.specs ≠ []) ?_ edges [] (by simp)
  intro b a hb p hp
  by_cases hsk : (config.excludeDev && a.2.dev) = true
  · rw [if_pos hsk] at hp
    exact hb p hp
  · rw [if_neg hsk] at hp
    rcases mem_mapSet hp with h | h
    · exact hb p h
    · subst h
      show (addEdge (mapGet b a.1) a.2).specs ≠ []
      rw [addEdge_specs]
      exact setAdd_ne_nil _ _

mutual

theorem buildFlat_specs_ne (tree : Node) (config : ConfigMap) :
    ∀ p, p ∈ buildFlatDependencies tree config → p.2.specs ≠ [] := by
  match tree with
  | .mk edges children =>
    rw [buildFlatDependencies]
    exact mergeChildren_specs_ne children (flattenEdges edges config) config
      (flattenEdges_specs_ne edges config)

theorem mergeChildren_specs_ne (children : List (String × Node))
    (deps : Dependencies) (config : ConfigMap)
    (hdeps : ∀ p, p ∈ deps → p.2.specs ≠ []) :
    ∀ p, p ∈ mergeChildren deps children config → p.2.specs ≠ [] := by
  match children with
  | [] =>
    rw [mergeChildren]
    exact hdeps
  | (cn, sub) :: rest =>
    rw [mergeChildren]
    refine mergeChildren_specs_ne rest _ config ?_
    intro p hp
    rcases List.mem_append.mp (mem_mapFromEntries hp) with h | h
    · exact hdeps p h
    · exact buildFlat_specs_ne sub config p h

end

theorem loadYarn_values (entries : List YarnEntry) :
    ∀ p, p ∈ loadYarnLockfileDependencies entries →
      p.2.specs ≠ [] ∧ p.2.versions ≠ [] := by
  unfold loadYarnLockfileDependencies
  refine foldl_preserve
    (P := fun (m : Dependencies) => ∀ p, p ∈ m → p.2.specs ≠ [] ∧ p.2.versions ≠ []) ?_
    entries [] (by simp)
  intro b e hb p hp
  by_cases hmeta : e.isMetadata = true
  · rw [if_pos hmeta] at hp
    exact hb p hp
  · rw [if_neg hmeta] at hp
    cases hspec : e.spec with
    | none =>
      rw [hspec] at hp
      exact hb p hp
    | some spec =>
      rw [hspec] at hp
      cases hname : e.name with
      | none =>
        rw [hname] at hp
        exact hb p hp
      | some name =>
        rw [hname] at hp
        dsimp only at hp
        by_cases hproto : e.protocol = none ∨ e.protocol = some "npm:"
        · rw [if_pos hproto] at hp
          rcases mem_mapSet hp with h | h
          · exact hb p h
          · subst h
            exact ⟨setAdd_ne_nil _ _, setAdd_ne_nil _ _⟩
        · rw [if_neg hproto] at hp
          exact hb p hp

theorem loadYarn_monotone (entries more : List YarnEntry) (name : String)
    (d : Dependency)
    (h : mapGet (loadYarnLockfileDependencies entries) name = some d) :
    ∃ d2,
      mapGet (loadYarnLockfileDependencies (entries ++ more)) name =
        some d2 ∧ d.specs ⊆ d2.specs ∧ d.versions ⊆ d2.versions := by
  unfold loadYarnLockfileDependencies at h ⊢
  rw [List.foldl_append]
  refine foldl_preserve
    (P := fun (m : Dependencies) => ∃ d2, mapGet m name = some d2 ∧
      d.specs ⊆ d2.specs ∧ d.versions ⊆ d2.versions) ?_ more _
    ⟨d, h, List.Subset.refl _, List.Subset.refl _⟩
  intro b e hb
  obtain ⟨d2, hg, hs, hv⟩ := hb
  by_cases hmeta : e.isMetadata = true
  · rw [if_pos hmeta]
    exact ⟨d2, hg, hs, hv⟩
  · rw [if_neg hmeta]
    cases hspec : e.spec with
    | none => exact ⟨d2, hg, hs, hv⟩
    | some spec =>
      cases hname : e.name with
      | none => exact ⟨d2, hg, hs, hv⟩
      | some n =>
        dsimp only
        by_cases hproto : e.protocol = none ∨ e.protocol = some "npm:"
        · rw [if_pos hproto]
          by_cases hn : n = name
          · subst hn
            rw [hg]
            refine ⟨_, mapGet_set_self _ _ _, ?_, ?_⟩
            · exact List.Subset.trans hs (subset_setAdd _ _)
            · exact List.Subset.trans hv (subset_setAdd _ _)
          · rw [mapGet_set_ne _ _ hn]
            exact ⟨d2, hg, hs, hv⟩
        · rw [if_neg hproto]
          exact ⟨d2, hg, hs, hv⟩

/-! ### Claim C1 -/

/-- C1, counterexample: the root references `a` with `^1.0.0` and a child
subtree references `a` with `~1.2.0`; the flattened record for `a` holds
only the child's spec, not the union — the child-merge of utils.ts line 66
overwrote the running entry. -/
theorem C1_counterexample :
    mapGet
        (buildFlatDependencies
          (Node.mk [("a", ⟨false, Range.caret ⟨1, 0, 0⟩, none⟩)]
            [("c", Node.mk [("a", ⟨false, Range.tilde ⟨1, 2, 0⟩, none⟩)] [])])
          {}) "a" =
      some ⟨[Range.tilde ⟨1, 2, 0⟩], []⟩ ∧
    Range.caret ⟨1, 0, 0⟩ ∉
      ((mapGet
        (buildFlatDependencies
          (Node.mk [("a", ⟨false, Range.caret ⟨1, 0, 0⟩, none⟩)]
            [("c", Node.mk [("a", ⟨false, Range.tilde ⟨1, 2, 0⟩, none⟩)] [])])
          {}) "a").getD default).specs := by
  decide

/-- C1 (amended): the child-merge of `buildFlatDependencies` is per-key
overwrite, not union — the record reported for a name is the one
contributed by the last child subtree containing it, and only when no child
contains it the record accumulated over the current node's own edges; that
per-node edge accumulation does collect every non-skipped matching edge's
spec. -/
theorem C1_merge_overwrites (edges : List (String × Edge))
    (children : List (String × Node)) (config : ConfigMap) (name : String) :
    (mapGet (buildFlatDependencies (Node.mk edges children) config) name =
      match lastChildHit children config name with
      | some d => some d
      | none => mapGet (flattenEdges edges config) name) ∧
    (∀ e : Edge, (name, e) ∈ edges → (config.excludeDev && e.dev) = false →
      ∃ d, mapGet (flattenEdges edges config) name = some d ∧
        e.spec ∈ d.specs) :=
  ⟨buildFlatDependencies_get edges children config name,
   fun e hmem hskip => flattenEdges_spec_mem edges config name e hmem hskip⟩

theorem C1_witness :
    Range.caret ⟨1, 0, 0⟩ ∈
      ((mapGet
        (flattenEdges [("a", ⟨false, Range.caret ⟨1, 0, 0⟩, none⟩)] {})
        "a").getD default).specs := by
  obtain ⟨d, h1, h2⟩ :=
    (C1_merge_overwrites [("a", ⟨false, Range.caret ⟨1, 0, 0⟩, none⟩)] [] {}
      "a").2 ⟨false, Range.caret ⟨1, 0, 0⟩, none⟩ (by decide) (by decide)
  rw [h1]
  exact h2

/-! ### Claim C9 -/

/-- C9, counterexample: a record produced by `buildFlatDependencies` for an
edge whose back-reference does not resolve (`edge.to == null`) exists but
has an empty `versions` set, refuting "both sets are non-empty once a
record exists". -/
theorem C9_counterexample :
    (mapGet
        (buildFlatDependencies
          (Node.mk [("a", ⟨false, Range.caret ⟨1, 0, 0⟩, none⟩)] []) {})
        "a").isSome = true ∧
    ((mapGet
        (buildFlatDependencies
          (Node.mk [("a", ⟨false, Range.caret ⟨1, 0, 0⟩, none⟩)] []) {})
        "a").getD default).versions = [] := by
  decide

/-- C9 (amended): every record in either mapping has a non-empty `specs`
set; records produced by the yarn adapter additionally have a non-empty
`versions` set and are only ever added to under further entries.
A `buildFlatDependencies` record's `versions` set may be empty (when no
matching edge's back-reference resolves), and the child-merge replaces
records rather than adding to them (see `C1_counterexample`). -/
theorem C9_record_invariants (tree : Node) (config : ConfigMap)
    (entries more : List YarnEntry) (name : String) :
    (∀ d, mapGet (buildFlatDependencies tree config) name = some d →
      d.specs ≠ []) ∧
    (∀ d, mapGet (loadYarnLockfileDependencies entries) name = some d →
      d.specs ≠ [] ∧ d.versions ≠ []) ∧
    (∀ d, mapGet (loadYarnLockfileDependencies entries) name = some d →
      ∃ d2,
        mapGet (loadYarnLockfileDependencies (entries ++ more)) name =
          some d2 ∧ d.specs ⊆ d2.specs ∧ d.versions ⊆ d2.versions) := by
  refine ⟨?_, ?_, ?_⟩
  · intro d hd
    exact buildFlat_specs_ne tree config (name, d) (mapGet_mem hd)
  · intro d hd
    exact loadYarn_values entries (name, d) (mapGet_mem hd)
  · intro d hd
    exact loadYarn_monotone entries more name d hd

theorem C9_witness :
    (Dependency.mk [Range.caret ⟨1, 0, 0⟩] [⟨1, 2, 3⟩]).specs ≠ [] ∧
    (Dependency.mk [Range.caret ⟨1, 0, 0⟩] [⟨1, 2, 3⟩]).versions ≠ [] :=
  (C9_record_invariants (Node.mk [] []) {}
    [⟨false, some "a", none, some (Range.caret ⟨1, 0, 0⟩), ⟨1, 2, 3⟩⟩] []
    "a").2.1 ⟨[Range.caret ⟨1, 0, 0⟩], [⟨1, 2, 3⟩]⟩ (by decide)

/-! ### Claim C2 -/

/-- C2, counterexample: for the spec's own scenario — `~1.2.0` a strict
subset of `^1.0.0` — the non-installed-mode effective set is `[~1.2.0]`:
the subset survives and the superset is dropped, contradicting "the spec
that survives is the superset". -/
theorem C2_counterexample :
    rangeSubset (Range.tilde ⟨1, 2, 0⟩) (Range.caret ⟨1, 0, 0⟩) = true ∧
    rangeSubset (Range.caret ⟨1, 0, 0⟩) (Range.tilde ⟨1, 2, 0⟩) = false ∧
    effectiveSpecs
        (some ⟨[Range.caret ⟨1, 0, 0⟩, Range.tilde ⟨1, 2, 0⟩], []⟩) {} =
      [Range.tilde ⟨1, 2, 0⟩] ∧
    Range.caret ⟨1, 0, 0⟩ ∉
      effectiveSpecs
        (some ⟨[Range.caret ⟨1, 0, 0⟩, Range.tilde ⟨1, 2, 0⟩], []⟩) {} := by
  decide

/-- C2 (amended): for a record holding exactly two specs A and B where A's
satisfying-version set is a strict subset of B's, non-installed-mode
reconciliation keeps neither both nor the superset: the effective set is
exactly `[A]` — the subset survives — whichever order the record lists
them in. -/
theorem C2_reconcile (A B : Range) (versions : List Version)
    (config : ConfigMap) (hprod : config.production = false)
    (hsub : rangeSubset A B = true) (hnsub : rangeSubset B A = false) :
    (∀ v, versionSatisfies v A = true → versionSatisfies v B = true) ∧
    effectiveSpecs (some ⟨[A, B], versions⟩) config = [A] ∧
    effectiveSpecs (some ⟨[B, A], versions⟩) config = [A] := by
  refine ⟨rangeSubset_sound hsub, ?_, ?_⟩ <;>
    simp [effectiveSpecs, hprod, reconcile, sortSpecs, sortInsert,
      reconcileStep, hsub, hnsub]

theorem C2_witness :
    effectiveSpecs
        (some ⟨[Range.caret ⟨2, 0, 0⟩, Range.exact ⟨2, 1, 3⟩], []⟩) {} =
      [Range.exact ⟨2, 1, 3⟩] :=
  (C2_reconcile (Range.exact ⟨2, 1, 3⟩) (Range.caret ⟨2, 0, 0⟩) [] {} rfl
    (by decide) (by decide)).2.2

/-! ### Suppression of a package by the policy checks -/

/-- If every (packument, effective spec) pair of a package fails the
combined allow/deny/grandfather test, `validateDependencies` reports no
entry at all for it. -/
theorem validate_get_none (dependencies : Dependencies)
    (packuments : List Packument)
    (vulnerabilities : List (String × List Advisory)) (config : ConfigMap)
    (now : Rat) (name : String)
    (h : ∀ p ∈ packuments, p.name = name →
      ∀ spec ∈ effectiveSpecs (mapGet dependencies name) config,
        (allowCheck config name (resolveVersion (knownVersions p.time) spec) &&
          denyCheck config name (resolveVersion (knownVersions p.time) spec) &&
          grandfatherCheck config name now (effectiveMinDays config)) =
          false) :
    mapGet
        (validateDependencies dependencies packuments vulnerabilities config
          now) name = none := by
  unfold validateDependencies
  refine foldl_preserve_mem
    (P := fun (m : List (String × List Validation)) => mapGet m name = none)
    packuments [] ?_ rfl
  intro b p hp hb
  dsimp only
  refine foldl_preserve_mem
    (P := fun (m : List (String × List Validation)) => mapGet m name = none)
    _ b ?_ hb
  intro b2 spec hspec hb2
  by_cases hname : p.name = name
  · have hcond := h p hp hname spec (by rw [hname] at hspec; exact hspec)
    rw [hname, hcond]
    simpa using hb2
  · split
    · rw [mapGet_set_ne _ _ hname]
      exact hb2
    · exact hb2

/-! ### Claim C3 -/

/-- C3, counterexample: a deny range `^1.0.0` is configured for `pkg` and
the resolved version `1.2.3` satisfies it; the claim says the Verdict is
suppressed, but the engine emits an entry for `pkg` — satisfying the deny
range is what lets the verdict through. -/
theorem C3_counterexample :
    versionSatisfies ⟨1, 2, 3⟩ (Range.caret ⟨1, 0, 0⟩) = true ∧
    denyCheck { deny := [("pkg", Range.caret ⟨1, 0, 0⟩)] } "pkg" ⟨1, 2, 3⟩ =
      true ∧
    (mapGet
        (validateDependencies [] [⟨"pkg", some [(.version ⟨1, 2, 3⟩, 0)]⟩]
          [] { deny := [("pkg", Range.caret ⟨1, 0, 0⟩)] } 0)
        "pkg").isSome = true := by
  refine ⟨by decide, by decide, ?_⟩
  rfl

/-- C3 (amended): the deny check mirrors the allow check. With no deny
range configured it passes; with one configured it passes exactly when the
resolved version satisfies the range, and when the resolved version fails
the deny range for every (packument, effective spec) pair the package is
suppressed from the result entirely. -/
theorem C3_deny (config : ConfigMap) (name : String) (version : Version)
    (r : Range) :
    (mapGet config.deny name = none → denyCheck config name version = true) ∧
    (mapGet config.deny name = some r →
      denyCheck config name version = versionSatisfies version r) ∧
    (∀ (dependencies : Dependencies) (packuments : List Packument)
        (vulnerabilities : List (String × List Advisory)) (now : Rat),
      mapGet config.deny name = some r →
      (∀ p ∈ packuments, p.name = name →
        ∀ spec ∈ effectiveSpecs (mapGet dependencies name) config,
          versionSatisfies (resolveVersion (knownVersions p.time) spec) r =
            false) →
      mapGet
          (validateDependencies dependencies packuments vulnerabilities
            config now) name = none) := by
  refine ⟨?_, ?_, ?_⟩
  · intro h
    unfold denyCheck
    rw [h]
  · intro h
    unfold denyCheck
    rw [h]
  · intro dependencies packuments vulnerabilities now hr hfail
    refine validate_get_none dependencies packuments vulnerabilities config
      now name ?_
    intro p hp hname spec hspec
    have hd : denyCheck config name
        (resolveVersion (knownVersions p.time) spec) = false := by
      unfold denyCheck
      rw [hr]
      exact hfail p hp hname spec hspec
    rw [hd]
    simp

theorem C3_witness :
    mapGet
        (validateDependencies [] [⟨"pkg", some [(.version ⟨1, 0, 0⟩, 0)]⟩]
          [] { deny := [("pkg", Range.caret ⟨2, 0, 0⟩)] } 0) "pkg" = none :=
  (C3_deny { deny := [("pkg", Range.caret ⟨2, 0, 0⟩)] } "pkg" ⟨1, 0, 0⟩
    (Range.caret ⟨2, 0, 0⟩)).2.2 [] [⟨"pkg", some [(.version ⟨1, 0, 0⟩, 0)]⟩]
    [] 0 (by decide) (by decide)

/-! ### Claim C5 -/

/-- C5 (confirmed): the verdict's version is the greatest known version
satisfying the effective spec, the sentinel `0.0.0` when none satisfies
it; for `graceful-fs` with `^4.2.0` over known versions `4.2.9` and
`4.2.10` it is `4.2.10`. -/
theorem C5_resolve (versions : List Version) (spec : Range) :
    ((∃ v ∈ versions, versionSatisfies v spec = true) →
      resolveVersion versions spec ∈ versions ∧
      versionSatisfies (resolveVersion versions spec) spec = true ∧
      ∀ v ∈ versions, versionSatisfies v spec = true →
        Version.leb v (resolveVersion versions spec) = true) ∧
    ((∀ v ∈ versions, versionSatisfies v spec = false) →
      resolveVersion versions spec = ⟨0, 0, 0⟩) ∧
    resolveVersion
        (knownVersions
          (some [(TimeKey.version ⟨4, 2, 9⟩, 35),
            (TimeKey.version ⟨4, 2, 10⟩, 15)]))
        (Range.caret ⟨4, 2, 0⟩) = ⟨4, 2, 10⟩ := by
  refine ⟨?_, ?_, by decide⟩
  · rintro ⟨v, hv, hsat⟩
    cases hm : maxSatisfying versions spec with
    | none =>
      rw [(maxSatisfying_eq_none_iff versions spec).mp hm v hv] at hsat
      exact absurd hsat (by simp)
    | some m =>
      obtain ⟨hmem, hsat', hmax⟩ := maxSatisfying_eq_some versions spec hm
      unfold resolveVersion
      rw [hm]
      exact ⟨hmem, hsat', hmax⟩
  · intro hall
    unfold resolveVersion
    rw [(maxSatisfying_eq_none_iff versions spec).mpr hall]
    rfl

theorem C5_witness :
    resolveVersion [⟨4, 2, 9⟩, ⟨4, 2, 10⟩] (Range.caret ⟨4, 2, 0⟩) ∈
      ([⟨4, 2, 9⟩, ⟨4, 2, 10⟩] : List Version) ∧
    versionSatisfies
        (resolveVersion [⟨4, 2, 9⟩, ⟨4, 2, 10⟩] (Range.caret ⟨4, 2, 0⟩))
        (Range.caret ⟨4, 2, 0⟩) = true :=
  have h := (C5_resolve [⟨4, 2, 9⟩, ⟨4, 2, 10⟩] (Range.caret ⟨4, 2, 0⟩)).1
    ⟨⟨4, 2, 10⟩, by decide, by decide⟩
  ⟨h.1, h.2.1⟩

/-! ### Claim C6 -/

/-- C6 (confirmed): `daysSincePublish` is the floor of the rational number
of days between now and the resolved version's publish timestamp, a
missing timestamp defaults to now (zero days), `safe` holds exactly when
`daysSincePublish` reaches `minDays` (the source compares the unfloored
days, which agrees because `minDays` is an integer), and `minDays`
defaults to 14. -/
theorem C6_validation (recs : List Recommendation) (version v : Version)
    (now published : Rat) (minDays : Int)
    (time : Option (List (TimeKey × Rat))) (config : ConfigMap) :
    (mkValidation recs version now published minDays).daysSincePublish =
      ⌊now - published⌋ ∧
    ((mkValidation recs version now published minDays).safe = true ↔
      minDays ≤
        (mkValidation recs version now published minDays).daysSincePublish) ∧
    (timeLookup time v = none →
      publishedOf time v now = now ∧
      (mkValidation recs version now (publishedOf time v now)
          minDays).daysSincePublish = 0) ∧
    (config.minDays = none → effectiveMinDays config = 14) := by
  refine ⟨rfl, ?_, ?_, ?_⟩
  · show decide ((minDays : Rat) ≤ now - published) = true ↔
      minDays ≤ ⌊now - published⌋
    rw [decide_eq_true_eq]
    exact Int.le_floor.symm
  · intro h
    have hpub : publishedOf time v now = now := by
      unfold publishedOf
      rw [h, Option.getD_none]
    refine ⟨hpub, ?_⟩
    show ⌊now - publishedOf time v now⌋ = 0
    rw [hpub, sub_self]
    exact Int.floor_zero
  · intro h
    unfold effectiveMinDays
    rw [h]
    rfl

theorem C6_witness :
    (mkValidation [] ⟨4, 2, 10⟩ 15 0 30).safe = false ∧
    (mkValidation [] ⟨4, 2, 10⟩ 15 0 30).daysSincePublish = 15 := by
  have h := (C6_validation [] ⟨4, 2, 10⟩ ⟨4, 2, 10⟩ 15 0 30 none {}).2.1
  have hd := (C6_validation [] ⟨4, 2, 10⟩ ⟨4, 2, 10⟩ 15 0 30 none {}).1
  have hfloor : (⌊(15 : Rat) - 0⌋ : Int) = 15 := by norm_num
  have hdays : (mkValidation [] ⟨4, 2, 10⟩ 15 0 30).daysSincePublish = 15 :=
    hd.trans hfloor
  refine ⟨?_, hdays⟩
  have hne : ¬ ((30 : Int) ≤
      (mkValidation [] ⟨4, 2, 10⟩ 15 0 30).daysSincePublish) := by
    rw [hdays]
    decide
  exact Bool.eq_false_iff.mpr fun hc => hne (h.mp hc)

/-! ### Claim C7 -/

/-- C7 (confirmed): with a grandfather date D configured for the package,
no Verdict at all is emitted for it while now is earlier than D plus the
effective minimum-age threshold — regardless of any publish date in the
packuments — and once now reaches D plus the threshold, the grandfather
check no longer suppresses. -/
theorem C7_grandfather (dependencies : Dependencies)
    (packuments : List Packument)
    (vulnerabilities : List (String × List Advisory)) (config : ConfigMap)
    (now : Rat) (name : String) (D : Rat)
    (hD : mapGet config.allowFrom name = some D) :
    (now - (D + (effectiveMinDays config : Rat)) < 0 →
      mapGet
          (validateDependencies dependencies packuments vulnerabilities
            config now) name = none) ∧
    (0 ≤ now - (D + (effectiveMinDays config : Rat)) →
      grandfatherCheck config name now (effectiveMinDays config) = true) := by
  constructor
  · intro hlt
    refine validate_get_none dependencies packuments vulnerabilities config
      now name ?_
    intro p _ _ spec _
    have hg : grandfatherCheck config name now (effectiveMinDays config) =
        false := by
      unfold grandfatherCheck
      rw [hD]
      exact decide_eq_false (not_le.mpr hlt)
    rw [hg]
    simp
  · intro hge
    unfold grandfatherCheck
    rw [hD]
    exact decide_eq_true hge

theorem C7_witness :
    mapGet
        (validateDependencies []
          [⟨"pkg", some [(.version ⟨1, 0, 0⟩, 0)]⟩] []
          { allowFrom := [("pkg", 5)] } 0) "pkg" = none :=
  (C7_grandfather [] [⟨"pkg", some [(.version ⟨1, 0, 0⟩, 0)]⟩] []
    { allowFrom := [("pkg", 5)] } 0 "pkg" 5 rfl).1
    (by norm_num [effectiveMinDays])

/-! ### Claim C10 -/

/-- C10 (confirmed): every key of the mapping `validateDependencies`
returns carries a non-empty list of Validations — a package whose every
effective spec is filtered out is absent altogether, never present with an
empty list. -/
theorem C10_values_nonempty (dependencies : Dependencies)
    (packuments : List Packument)
    (vulnerabilities : List (String × List Advisory)) (config : ConfigMap)
    (now : Rat) (name : String) (l : List Validation)
    (h : mapGet
        (validateDependencies dependencies packuments vulnerabilities config
          now) name = some l) :
    l ≠ [] := by
  suffices hall : ∀ p ∈ validateDependencies dependencies packuments
      vulnerabilities config now, p.2 ≠ [] by
    exact hall (name, l) (mapGet_mem h)
  unfold validateDependencies
  refine foldl_preserve
    (P := fun (m : List (String × List Validation)) => ∀ p ∈ m, p.2 ≠ [])
    ?_ packuments [] (by simp)
  intro b p hb
  dsimp only
  refine foldl_preserve
    (P := fun (m : List (String × List Validation)) => ∀ p ∈ m, p.2 ≠ [])
    ?_ _ b hb
  intro b2 spec hb2
  split
  · intro q hq
    rcases mem_mapSet hq with h' | h'
    · exact hb2 q h'
    · subst h'
      simp
  · exact hb2

theorem C10_witness :
    ([mkValidation [] ⟨1, 0, 0⟩ 0
        (publishedOf (some [(TimeKey.version ⟨1, 0, 0⟩, 0)]) ⟨1, 0, 0⟩ 0)
        14] : List Validation) ≠ [] :=
  C10_values_nonempty [] [⟨"pkg", some [(.version ⟨1, 0, 0⟩, 0)]⟩] [] {} 0
    "pkg" _ rfl

/-! ### Claim C8 -/

/-- The `reduce` of utils.ts lines 201-204 computes a minimum: folding
from `some c` yields the least element of `c :: l`. -/
theorem pickMin_foldl (l : List Version) :
    ∀ c : Version,
      ∃ m,
        (l.foldl
          (fun carry item =>
            match carry with
            | none => some item
            | some c => if Version.ltb item c then some item else some c)
          (some c)) = some m ∧
        (m = c ∨ m ∈ l) ∧ Version.leb m c = true ∧
        ∀ w ∈ l, Version.leb m w = true := by
  induction l with
  | nil =>
    intro c
    exact ⟨c, rfl, Or.inl rfl, Version.leb_refl c, by simp⟩
  | cons x xs ih =>
    intro c
    rw [List.foldl_cons]
    dsimp only
    by_cases hlt : Version.ltb x c = true
    · rw [if_pos hlt]
      obtain ⟨m, hm, hmem, hle, hall⟩ := ih x
      refine ⟨m, hm, ?_, ?_, ?_⟩
      · rcases hmem with h | h
        · right; rw [h]; exact List.mem_cons_self _ _
        · right; exact List.mem_cons_of_mem _ h
      · exact Version.leb_trans hle (Version.leb_of_ltb hlt)
      · intro w hw
        rcases List.mem_cons.mp hw with h | h
        · rw [h]; exact hle
        · exact hall w h
    · rw [if_neg hlt]
      obtain ⟨m, hm, hmem, hle, hall⟩ := ih c
      refine ⟨m, hm, ?_, hle, ?_⟩
      · rcases hmem with h | h
        · left; exact h
        · right; exact List.mem_cons_of_mem _ h
      · intro w hw
        rcases List.mem_cons.mp hw with h | h
        · rw [h]
          exact Version.leb_trans hle
            (Version.not_ltb (Bool.not_eq_true _ ▸ hlt))
        · exact hall w h

/-- C8 (confirmed): when the advisory's version test accepts the resolved
version, the Recommendation's `fixedVersion` is the least advisory-listed
version that is not vulnerable and strictly greater than the resolved
version, and it is null exactly when no such version exists. -/
theorem C8_fixed (advisory : Advisory) (version : Version) :
    (∀ f, fixedVersionFor advisory version = some f →
      f ∈ advisory.versions ∧ f ∉ advisory.vulnerableVersions ∧
      Version.ltb version f = true ∧
      ∀ w ∈ advisory.versions, w ∉ advisory.vulnerableVersions →
        Version.ltb version w = true → Version.leb f w = true) ∧
    (fixedVersionFor advisory version = none →
      ∀ w ∈ advisory.versions, w ∉ advisory.vulnerableVersions →
        Version.ltb version w = true → False) := by
  have hfiltmem : ∀ w ∈ advisory.versions,
      w ∉ advisory.vulnerableVersions → Version.ltb version w = true →
      w ∈ advisory.versions.filter fun item =>
        !(decide (item ∈ advisory.vulnerableVersions)) &&
          Version.ltb version item := by
    intro w hw hnv hgt
    refine List.mem_filter.mpr ⟨hw, ?_⟩
    simp [hnv, hgt]
  constructor
  · intro f hf
    unfold fixedVersionFor at hf
    cases hfilt : advisory.versions.filter fun item =>
        !(decide (item ∈ advisory.vulnerableVersions)) &&
          Version.ltb version item with
    | nil =>
      rw [hfilt] at hf
      simp at hf
    | cons y ys =>
      rw [hfilt] at hf
      rw [List.foldl_cons] at hf
      dsimp only at hf
      obtain ⟨m, hm, hmem, hle, hall⟩ := pickMin_foldl ys y
      rw [hm] at hf
      simp only [Option.some.injEq] at hf
      subst hf
      have hfmem : m ∈ advisory.versions.filter fun item =>
          !(decide (item ∈ advisory.vulnerableVersions)) &&
            Version.ltb version item := by
        rw [hfilt]
        rcases hmem with h | h
        · rw [h]; exact List.mem_cons_self _ _
        · exact List.mem_cons_of_mem _ h
      have hprops := List.mem_filter.mp hfmem
      have hfver : m ∈ advisory.versions := hprops.1
      have hpred := hprops.2
      simp only [Bool.and_eq_true, Bool.not_eq_true', decide_eq_false_iff_not]
        at hpred
      refine ⟨hfver, hpred.1, hpred.2, ?_⟩
      intro w hw hnv hgt
      have hwfilt := hfiltmem w hw hnv hgt
      rw [hfilt] at hwfilt
      rcases List.mem_cons.mp hwfilt with h | h
      · rw [h]; exact hle
      · exact hall w h
  · intro hnone w hw hnv hgt
    unfold fixedVersionFor at hnone
    have hwfilt := hfiltmem w hw hnv hgt
    cases hfilt : advisory.versions.filter fun item =>
        !(decide (item ∈ advisory.vulnerableVersions)) &&
          Version.ltb version item with
    | nil =>
      rw [hfilt] at hwfilt
      exact absurd hwfilt (by simp)
    | cons y ys =>
      rw [hfilt] at hnone
      rw [List.foldl_cons] at hnone
      dsimp only at hnone
      obtain ⟨m, hm, -, -, -⟩ := pickMin_foldl ys y
      rw [hm] at hnone
      exact Option.noConfusion hnone

theorem C8_witness :
    fixedVersionFor
        ⟨"p", none, "high", "t", none,
          [⟨2, 0, 0⟩, ⟨2, 0, 1⟩, ⟨2, 0, 2⟩], [⟨2, 0, 0⟩, ⟨2, 0, 1⟩],
          fun _ => true⟩ ⟨2, 0, 0⟩ = some ⟨2, 0, 2⟩ ∧
    (⟨2, 0, 2⟩ : Version) ∉ ([⟨2, 0, 0⟩, ⟨2, 0, 1⟩] : List Version) ∧
    Version.ltb ⟨2, 0, 0⟩ ⟨2, 0, 2⟩ = true := by
  have h := (C8_fixed
    ⟨"p", none, "high", "t", none,
      [⟨2, 0, 0⟩, ⟨2, 0, 1⟩, ⟨2, 0, 2⟩], [⟨2, 0, 0⟩, ⟨2, 0, 1⟩],
      fun _ => true⟩ ⟨2, 0, 0⟩).1 ⟨2, 0, 2⟩ (by decide)
  exact ⟨by decide, h.2.1, h.2.2.1⟩

/-! ### Claim C4 -/

/-- C4, counterexample: on a one-node graph whose only child reference is
itself, the recursion of `buildFlatDependencies` never completes for any
recursion-depth budget — the code tracks no visited set, so a true cycle
through node references means non-termination. -/
theorem C4_counterexample : ¬ terminatesOn [⟨[], [("self", 0)]⟩] {} 0 := by
  rintro ⟨fuel, hfuel⟩
  have hall : ∀ f, runFlat [⟨[], [("self", 0)]⟩] {} f 0 = none := by
    intro f
    induction f with
    | zero => simp [runFlat]
    | succ n ih => simp [runFlat, runChildren, ih]
  rw [hall fuel] at hfuel
  simp at hfuel

/-- C4 (amended): `buildFlatDependencies` terminates on every graph that
is actually acyclic through child references — witnessed by a rank
function strictly decreasing along them, with all child indices valid —
completing within any recursion-depth budget above the root's rank. It
does not track visited nodes, so this does not extend to cyclic graphs
(see the counterexample). -/
theorem C4_ranked (g : List GNode) (config : ConfigMap) (rank : Nat → Nat)
    (hvalid : ∀ i, i < g.length →
      ∀ c ∈ (g.getD i default).children, c.2 < g.length ∧ rank c.2 < rank i)
    (root : Nat) (hroot : root < g.length) :
    terminatesOn g config root ∧
    ∀ fuel, rank root < fuel → (runFlat g config fuel root).isSome = true := by
  have main : ∀ fuel r, r < g.length → rank r < fuel →
      (runFlat g config fuel r).isSome = true := by
    intro fuel
    induction fuel with
    | zero => intro r _ hrank; omega
    | succ n ih =>
      intro r hr hrank
      have hsome : g.get? r = some (g.getD r default) := by
        rw [List.getD_eq_get?, List.get?_eq_get hr]
        rfl
      have hchildren : ∀ c ∈ (g.getD r default).children,
          c.2 < g.length ∧ rank c.2 < n := by
        intro c hc
        obtain ⟨h1, h2⟩ := hvalid r hr c hc
        exact ⟨h1, by omega⟩
      rw [runFlat, hsome]
      suffices hrc : ∀ (cs : List (String × Nat)) (deps : Dependencies),
          (∀ c ∈ cs, c.2 < g.length ∧ rank c.2 < n) →
          (runChildren g config n deps cs).isSome = true by
        exact hrc _ _ hchildren
      intro cs
      induction cs with
      | nil =>
        intro deps _
        simp [runChildren]
      | cons c rest ihc =>
        intro deps hcs
        obtain ⟨cn, ci⟩ := c
        obtain ⟨hlen, hrank'⟩ := hcs (cn, ci) (List.mem_cons_self _ _)
        obtain ⟨sub, hsub⟩ :=
          Option.isSome_iff_exists.mp (ih ci hlen hrank')
        rw [runChildren, hsub]
        exact ihc _ fun d hd => hcs d (List.mem_cons_of_mem _ hd)
  exact ⟨⟨rank root + 1, main (rank root + 1) root hroot (by omega)⟩,
    fun fuel hfuel => main fuel root hroot hfuel⟩

theorem C4_witness :
    (runFlat [⟨[("a", ⟨false, Range.star, none⟩)], [("b", 1)]⟩, ⟨[], []⟩]
      {} 2 0).isSome = true :=
  (C4_ranked [⟨[("a", ⟨false, Range.star, none⟩)], [("b", 1)]⟩, ⟨[], []⟩]
    {} (fun i => 1 - i) (by decide) 0 (by decide)).2 2 (by decide)

end Paranoid
